import Mathlib

/-!
Shallow embedding of `src/utils/barkMatcher.ts` (the WoodWiz bark-matching
core) and proofs of the specification claims about it.

Modelling conventions:
* JavaScript numbers are modelled as exact rationals `ℚ`; RGBA bytes as `ℕ`.
* `Math.sqrt` is an abstract parameter `s : ℚ → ℚ` threaded through every
  definition that the source computes with: the claims hold for every
  square-root routine, with its basic properties (`s 0 = 0`, nonnegativity)
  taken as explicit hypotheses where a claim needs them.
* The decode stage (`expo-image-manipulator`, `jpeg-js`, `atob`) is outside
  the embedded core: `matchBarkPhoto` is modelled from the decoded
  `{data, width, height}` grid onward, which is where every claim starts.
* The JS `Map` (insertion-ordered, first-insertion position kept on update)
  is modelled by the association list `insertBest`; `Array.prototype.sort`
  with comparator `(a, b) => a.dist - b.dist` (stable, ascending by `dist`)
  by `List.mergeSort` on `≤` of `dist`; `Array.prototype.slice(0, topK)`
  with a JS `number` end argument by `jsSliceTo` over `ℤ`.
-/

/-- `const BINS = 4`. -/
def BINS : ℤ := 4

/-- Decoded RGBA image: `decoded.data` (flat byte array, 4 bytes per pixel),
`decoded.width`, `decoded.height`. -/
structure RawImage where
  data : ℕ → ℕ
  width : ℕ
  height : ℕ

/-- `features: { hist: number[]; edge: number }`. -/
structure Features where
  hist : List ℚ
  edge : ℚ
  deriving DecidableEq

/-- `type BarkIndexEntry = { speciesKey; filename; features }`. -/
structure BarkIndexEntry where
  speciesKey : String
  filename : String
  features : Features
  deriving DecidableEq

/-- `type BarkIndex = { entries: BarkIndexEntry[] }`. -/
structure BarkIndex where
  entries : List BarkIndexEntry

/-- `function binIndex(v)`: `Math.min(BINS - 1, Math.max(0, Math.floor((v / 256) * BINS)))`. -/
def binIndex (v : ℚ) : ℤ :=
  min (BINS - 1) (max 0 ⌊v / 256 * (BINS : ℚ)⌋)

/-- `function clamp(v, lo, hi)`: `Math.max(lo, Math.min(hi, v))`. -/
def clampQ (v lo hi : ℚ) : ℚ := max lo (min hi v)

/-- `function lerp(a, b, t)`: `a + (b - a) * t`. -/
def lerp (a b t : ℚ) : ℚ := a + (b - a) * t

/-- `function euclidean(a, b)`: sum of squared componentwise differences over
`a`'s index range (with `b` read through `getD`, matching in-range use), then
the square root `s`. -/
def euclidean (s : ℚ → ℚ) (a b : List ℚ) : ℚ :=
  s (∑ i ∈ Finset.range a.length, (a.getD i 0 - b.getD i 0) ^ 2)

/-- Grayscale luminance at `(x, y)`: `0.299 * r + 0.587 * g + 0.114 * b`
reading the flat RGBA array at `(y * w + x) * 4`. -/
def grayAt (img : RawImage) (x y : ℕ) : ℚ :=
  let idx := (y * img.width + x) * 4
  0.299 * (img.data (idx + 0) : ℚ) + 0.587 * (img.data (idx + 1) : ℚ)
    + 0.114 * (img.data (idx + 2) : ℚ)

/-- Result record of `analyzeImageQuality`. -/
structure QualityMetrics where
  mean : ℚ
  std : ℚ
  edgeNorm : ℚ
  isTooDark : Bool
  isTooFlat : Bool
  isTooBlank : Bool

/-- Central-difference gradient magnitude at an interior pixel:
`Math.sqrt(gx * gx + gy * gy)` with `gx = gray(x+1,y) − gray(x−1,y)`,
`gy = gray(x,y+1) − gray(x,y−1)`. -/
def gradMag (s : ℚ → ℚ) (img : RawImage) (x y : ℕ) : ℚ :=
  let gx := grayAt img (x + 1) y - grayAt img (x - 1) y
  let gy := grayAt img x (y + 1) - grayAt img x (y - 1)
  s (gx * gx + gy * gy)

/-- `function analyzeImageQuality(rgba, w, h)`: mean/stddev of luminance over
the full grid, interior average gradient magnitude normalised by 100 and
clamped to `[0,1]`, and the three threshold flags.  The interior loops
`for (y = 1; y < h - 1)` / `for (x = 1; x < w - 1)` are the sums over
`Finset.Ico 1 (h - 1)` / `Finset.Ico 1 (w - 1)`. -/
def analyzeImageQuality (s : ℚ → ℚ) (img : RawImage) : QualityMetrics :=
  let w := img.width
  let h := img.height
  let n := w * h
  if n = 0 then
    { mean := 0, std := 0, edgeNorm := 0,
      isTooDark := true, isTooFlat := true, isTooBlank := true }
  else
    let sum := ∑ y ∈ Finset.range h, ∑ x ∈ Finset.range w, grayAt img x y
    let sumSq := ∑ y ∈ Finset.range h, ∑ x ∈ Finset.range w, grayAt img x y * grayAt img x y
    let mean := sum / (n : ℚ)
    let variance := max 0 (sumSq / (n : ℚ) - mean * mean)
    let std := s variance
    let edgeSum := ∑ y ∈ Finset.Ico 1 (h - 1), ∑ x ∈ Finset.Ico 1 (w - 1), gradMag s img x y
    let edgeCount : ℕ := ∑ _y ∈ Finset.Ico 1 (h - 1), ∑ _x ∈ Finset.Ico 1 (w - 1), 1
    let edgeAvg := if 0 < edgeCount then edgeSum / (edgeCount : ℚ) else 0
    let edgeNorm := clampQ (edgeAvg / 100) 0 1
    let isTooDark := decide (mean < 18)
    let isTooFlat := decide (std < 10)
    let isTooBlank := (isTooDark && isTooFlat) || decide (edgeNorm < 0.02)
    { mean := mean, std := std, edgeNorm := edgeNorm,
      isTooDark := isTooDark, isTooFlat := isTooFlat, isTooBlank := isTooBlank }

/-- The 64-bucket flat histogram index of one pixel:
`(ri * BINS + gi) * BINS + bi` of the three per-channel bin indices. -/
def pixBucket (img : RawImage) (x y : ℕ) : ℤ :=
  let idx := (y * img.width + x) * 4
  let ri := binIndex (img.data (idx + 0) : ℚ)
  let gi := binIndex (img.data (idx + 1) : ℚ)
  let bi := binIndex (img.data (idx + 2) : ℚ)
  (ri * BINS + gi) * BINS + bi

/-- The pixel scan order of the feature-extraction loop:
`for (y = 0; y < h; y++) for (x = 0; x < w; x++)`. -/
def pixList (w h : ℕ) : List (ℕ × ℕ) :=
  (List.range h).flatMap (fun y => (List.range w).map (fun x => (x, y)))

/-- One step of `hist[hi] += 1`. -/
def bumpHist (acc : List ℚ) (i : ℕ) : List ℚ :=
  acc.set i (acc.getD i 0 + 1)

/-- `function extractFeaturesFromRGBA(rgba, w, h)`: the raw bucket counts
(fold of `hist[hi] += 1` over the pixel scan), normalised by total pixel
count; the edge statistic accumulated over the same loop under the interior
guard `x > 0 && x < w - 1 && y > 0 && y < h - 1`, normalised and clamped by
`Math.max(0, Math.min(1, edgeAvg / 100))`. -/
def extractFeaturesFromRGBA (s : ℚ → ℚ) (img : RawImage) : Features :=
  let w := img.width
  let h := img.height
  let rawHist := (pixList w h).foldl
    (fun acc p => bumpHist acc (pixBucket img p.1 p.2).toNat)
    (List.replicate (BINS.toNat * BINS.toNat * BINS.toNat) 0)
  let edgeSum := ∑ y ∈ Finset.range h, ∑ x ∈ Finset.range w,
    if 0 < x ∧ x < w - 1 ∧ 0 < y ∧ y < h - 1 then gradMag s img x y else 0
  let edgeCount : ℕ := ∑ y ∈ Finset.range h, ∑ x ∈ Finset.range w,
    if 0 < x ∧ x < w - 1 ∧ 0 < y ∧ y < h - 1 then 1 else 0
  let total := w * h
  let hist := rawHist.map (fun c => c / (total : ℚ))
  let edgeAvg := if 0 < edgeCount then edgeSum / (edgeCount : ℚ) else 0
  let edge := max 0 (min 1 (edgeAvg / 100))
  { hist := hist, edge := edge }

/-- The per-entry distance inside `matchBarkPhoto`:
`dist = euclidean(q.hist, e.features.hist) + Math.abs(q.edge − e.features.edge) * 0.25`. -/
def entryDist (s : ℚ → ℚ) (q : Features) (e : BarkIndexEntry) : ℚ :=
  euclidean s q.hist e.features.hist + |q.edge - e.features.edge| * 0.25

/-- One `bestBySpecies.set` step of the reduction: JS `Map` semantics —
an existing key is updated in place (keeping its insertion position) only on
a strictly smaller distance; a new key is appended at the end. -/
def insertBest (acc : List (String × ℚ × String)) (k : String) (d : ℚ) (fn : String) :
    List (String × ℚ × String) :=
  match acc with
  | [] => [(k, d, fn)]
  | (k', d', f') :: rest =>
    if k' = k then
      (if d < d' then (k, d, fn) :: rest else (k', d', f') :: rest)
    else
      (k', d', f') :: insertBest rest k d fn

/-- `bestBySpecies.get` on the association-list model of the JS `Map`. -/
def lookupBest (k : String) : List (String × ℚ × String) → Option (ℚ × String)
  | [] => none
  | (k', d', f') :: rest => if k' = k then some (d', f') else lookupBest k rest

/-- The label-reduction loop of `matchBarkPhoto`: for each index entry,
keep the lowest distance per `speciesKey` together with the filename that
produced it. -/
def bestBySpecies (s : ℚ → ℚ) (q : Features) (entries : List BarkIndexEntry) :
    List (String × ℚ × String) :=
  entries.foldl (fun acc e => insertBest acc e.speciesKey (entryDist s q e) e.filename) []

/-- Element shape of `ranked`: `{ speciesKey, dist, filename }`. -/
structure Candidate where
  speciesKey : String
  dist : ℚ
  filename : String
  deriving DecidableEq

/-- Element shape of the returned array:
`{ rank, speciesKey, filename, distance, confidence }`. -/
structure MatchResult where
  rank : ℕ
  speciesKey : String
  filename : String
  distance : ℚ
  confidence : ℚ
  deriving DecidableEq

/-- `Array.prototype.slice(0, k)` for a possibly negative integer `k`:
a negative end counts from the end of the array. -/
def jsSliceTo {α : Type} (l : List α) (k : ℤ) : List α :=
  l.take (if k < 0 then ((l.length : ℤ) + k).toNat else k.toNat)

/-- `ranked`: the reduced candidates turned into records, sorted ascending by
`dist` (JS stable sort with comparator `a.dist - b.dist`), truncated by
`.slice(0, topK)`. -/
def rankedCandidates (s : ℚ → ℚ) (q : Features) (entries : List BarkIndexEntry) (topK : ℤ) :
    List Candidate :=
  jsSliceTo
    (((bestBySpecies s q entries).map
        (fun p => ({ speciesKey := p.1, dist := p.2.1, filename := p.2.2 } : Candidate))).mergeSort
      (fun a b => decide (a.dist ≤ b.dist)))
    topK

/-- The tail of `matchBarkPhoto`: `if (ranked.length === 0) return []`, then
confidence normalisation over the truncated list (`bestDist` of rank 1,
`worstDist` of the last retained rank, `denom = max(1e-9, worst − best)`) and
the final `ranked.map((r, i) => …)`. -/
def scoreCandidates (ranked : List Candidate) : List MatchResult :=
  match ranked with
  | [] => []
  | c0 :: cs =>
    let bestDist := c0.dist
    let worstDist := (cs.getLastD c0).dist
    let denom := max 1e-9 (worstDist - bestDist)
    (c0 :: cs).enum.map (fun p =>
      { rank := p.1 + 1
        speciesKey := p.2.speciesKey
        filename := p.2.filename
        distance := p.2.dist
        confidence := clampQ (lerp 0.95 0.55 (clampQ ((p.2.dist - bestDist) / denom) 0 1)) 0.05 0.99 })

/-- `matchBarkPhoto` from the decoded pixel grid onward: quality gate first
(empty result on `isTooBlank`), then extract, reduce, rank, truncate, score. -/
def matchBarkPhoto (s : ℚ → ℚ) (img : RawImage) (barkIndex : BarkIndex) (topK : ℤ) :
    List MatchResult :=
  let qQuality := analyzeImageQuality s img
  if qQuality.isTooBlank then []
  else
    let q := extractFeaturesFromRGBA s img
    scoreCandidates (rankedCandidates s q barkIndex.entries topK)

/-! ### Basic facts about `clampQ` and `lerp` -/

theorem clampQ_bounds (v lo hi : ℚ) (h : lo ≤ hi) :
    lo ≤ clampQ v lo hi ∧ clampQ v lo hi ≤ hi := by
  constructor
  · exact le_max_left _ _
  · exact max_le h (min_le_left _ _)

theorem clampQ_mono {a b : ℚ} (lo hi : ℚ) (h : a ≤ b) :
    clampQ a lo hi ≤ clampQ b lo hi :=
  max_le_max le_rfl (min_le_min le_rfl h)

theorem lerp_anti {t₁ t₂ : ℚ} {a b : ℚ} (hab : b ≤ a) (h : t₁ ≤ t₂) :
    lerp a b t₂ ≤ lerp a b t₁ := by
  unfold lerp
  nlinarith

theorem clampQ_of_le {v lo hi : ℚ} (h1 : lo ≤ v) (h2 : v ≤ hi) : clampQ v lo hi = v := by
  unfold clampQ
  rw [min_eq_right h2, max_eq_right h1]

/-! ### The association-list model of the JS `Map` -/

theorem insertBest_ne_nil (acc : List (String × ℚ × String)) (k : String) (d : ℚ) (fn : String) :
    insertBest acc k d fn ≠ [] := by
  match acc with
  | [] => simp [insertBest]
  | (k', d', f') :: rest =>
    simp only [insertBest]
    split_ifs <;> simp

theorem lookupBest_insertBest_self_none {acc : List (String × ℚ × String)} {k : String}
    (h : lookupBest k acc = none) (d : ℚ) (fn : String) :
    lookupBest k (insertBest acc k d fn) = some (d, fn) := by
  induction acc with
  | nil => simp [insertBest, lookupBest]
  | cons p rest ih =>
    obtain ⟨k', d', f'⟩ := p
    by_cases hk : k' = k
    · simp [lookupBest, hk] at h
    · simp only [lookupBest, if_neg hk] at h
      simp [insertBest, lookupBest, hk, ih h]

theorem lookupBest_insertBest_self_some {acc : List (String × ℚ × String)} {k : String}
    {d' : ℚ} {f' : String} (h : lookupBest k acc = some (d', f')) (d : ℚ) (fn : String) :
    lookupBest k (insertBest acc k d fn) =
      some (if d < d' then (d, fn) else (d', f')) := by
  induction acc with
  | nil => simp [lookupBest] at h
  | cons p rest ih =>
    obtain ⟨k0, d0, f0⟩ := p
    by_cases hk : k0 = k
    · simp only [lookupBest, if_pos hk] at h
      obtain ⟨rfl, rfl⟩ : d0 = d' ∧ f0 = f' := by simpa using h
      simp only [insertBest, if_pos hk]
      split_ifs with hd
      · simp [lookupBest]
      · simp [lookupBest, hk]
    · simp only [lookupBest, if_neg hk] at h
      simp [insertBest, lookupBest, hk, ih h]

theorem lookupBest_insertBest_ne {k0 k : String} (hne : k0 ≠ k)
    (acc : List (String × ℚ × String)) (d : ℚ) (fn : String) :
    lookupBest k0 (insertBest acc k d fn) = lookupBest k0 acc := by
  induction acc with
  | nil => simp [insertBest, lookupBest, Ne.symm hne]
  | cons p rest ih =>
    obtain ⟨k', d', f'⟩ := p
    by_cases hk : k' = k
    · subst hk
      simp only [insertBest, if_pos rfl]
      split_ifs <;> simp [lookupBest, Ne.symm hne]
    · simp only [insertBest, if_neg hk]
      by_cases hk0 : k' = k0 <;> simp [lookupBest, hk0, ih]

theorem lookupBest_eq_none_iff (k : String) (acc : List (String × ℚ × String)) :
    lookupBest k acc = none ↔ k ∉ acc.map Prod.fst := by
  induction acc with
  | nil => simp [lookupBest]
  | cons p rest ih =>
    obtain ⟨k', d', f'⟩ := p
    by_cases hk : k' = k
    · simp [lookupBest, hk]
    · simp [lookupBest, hk, ih, Ne.symm hk]

theorem keys_insertBest_of_mem {acc : List (String × ℚ × String)} {k : String}
    (h : k ∈ acc.map Prod.fst) (d : ℚ) (fn : String) :
    (insertBest acc k d fn).map Prod.fst = acc.map Prod.fst := by
  induction acc with
  | nil => simp at h
  | cons p rest ih =>
    obtain ⟨k', d', f'⟩ := p
    by_cases hk : k' = k
    · simp only [insertBest, if_pos hk]
      split_ifs <;> simp [hk]
    · simp only [List.map_cons, List.mem_cons] at h
      rcases h with h | h
      · exact absurd h.symm hk
      · simp [insertBest, hk, ih h]

theorem keys_insertBest_of_not_mem {acc : List (String × ℚ × String)} {k : String}
    (h : k ∉ acc.map Prod.fst) (d : ℚ) (fn : String) :
    (insertBest acc k d fn).map Prod.fst = acc.map Prod.fst ++ [k] := by
  induction acc with
  | nil => simp [insertBest]
  | cons p rest ih =>
    obtain ⟨k', d', f'⟩ := p
    simp only [List.map_cons, List.mem_cons] at h
    push_neg at h
    simp [insertBest, Ne.symm h.1, ih h.2]

theorem keys_insertBest_nodup {acc : List (String × ℚ × String)} {k : String}
    (h : (acc.map Prod.fst).Nodup) (d : ℚ) (fn : String) :
    ((insertBest acc k d fn).map Prod.fst).Nodup := by
  by_cases hm : k ∈ acc.map Prod.fst
  · rw [keys_insertBest_of_mem hm]
    exact h
  · rw [keys_insertBest_of_not_mem hm]
    simp [List.nodup_append, h, hm]

/-! ### Per-label decomposition of the reduction fold -/

/-- The effect of one reduction step on the record of a single label:
keep the previous best unless the new distance is strictly smaller. -/
def stepBest (s : ℚ → ℚ) (q : Features) (o : Option (ℚ × String)) (e : BarkIndexEntry) :
    Option (ℚ × String) :=
  match o with
  | none => some (entryDist s q e, e.filename)
  | some (d', f') =>
      if entryDist s q e < d' then some (entryDist s q e, e.filename) else some (d', f')

/-- Structural form of the per-label minimum: the first-encountered entry
wins ties. -/
def bestOf (s : ℚ → ℚ) (q : Features) : List BarkIndexEntry → Option (ℚ × String)
  | [] => none
  | e :: rest =>
    match bestOf s q rest with
    | none => some (entryDist s q e, e.filename)
    | some (d, fn) =>
        if entryDist s q e ≤ d then some (entryDist s q e, e.filename) else some (d, fn)

theorem lookupBest_foldl (s : ℚ → ℚ) (q : Features) (entries : List BarkIndexEntry)
    (acc : List (String × ℚ × String)) (k : String) :
    lookupBest k (entries.foldl
        (fun a e => insertBest a e.speciesKey (entryDist s q e) e.filename) acc)
      = (entries.filter (fun e => decide (e.speciesKey = k))).foldl
          (stepBest s q) (lookupBest k acc) := by
  induction entries generalizing acc with
  | nil => simp
  | cons e t ih =>
    rw [List.foldl_cons, ih]
    by_cases hk : e.speciesKey = k
    · have hfil : (e :: t).filter (fun e => decide (e.speciesKey = k))
          = e :: t.filter (fun e => decide (e.speciesKey = k)) := by
        simp [List.filter_cons, hk]
      rw [hfil, List.foldl_cons]
      congr 1
      rcases ho : lookupBest k acc with _ | ⟨d', f'⟩
      · rw [hk, lookupBest_insertBest_self_none ho]
        simp [stepBest]
      · rw [hk, lookupBest_insertBest_self_some ho]
        simp only [stepBest]
        split_ifs <;> rfl
    · have hfil : (e :: t).filter (fun e => decide (e.speciesKey = k))
          = t.filter (fun e => decide (e.speciesKey = k)) := by
        simp [List.filter_cons, hk]
      rw [hfil]
      congr 1
      exact lookupBest_insertBest_ne (Ne.symm hk) _ _ _

theorem foldl_stepBest_some (s : ℚ → ℚ) (q : Features) (l : List BarkIndexEntry)
    (d0 : ℚ) (f0 : String) :
    l.foldl (stepBest s q) (some (d0, f0))
      = match bestOf s q l with
        | none => some (d0, f0)
        | some (d, fn) => if d < d0 then some (d, fn) else some (d0, f0) := by
  induction l generalizing d0 f0 with
  | nil => simp [bestOf]
  | cons e t ih =>
    simp only [List.foldl_cons, stepBest]
    split_ifs with hd
    · rw [ih]
      rcases hb : bestOf s q t with _ | ⟨d, fn⟩
      · simp [bestOf, hb, hd]
      · simp only [bestOf, hb]
        by_cases hle : entryDist s q e ≤ d
        · have hnd : ¬ d < entryDist s q e := not_lt.mpr hle
          simp [hle, hd, hnd]
        · push_neg at hle
          simp [not_le.mpr hle, lt_trans hle hd]
    · push_neg at hd
      rw [ih]
      rcases hb : bestOf s q t with _ | ⟨d, fn⟩
      · simp only [bestOf, hb]
        have hnd : ¬ entryDist s q e < d0 := not_lt.mpr hd
        simp [hnd]
      · simp only [bestOf, hb]
        by_cases hle : entryDist s q e ≤ d
        · have h1 : ¬ entryDist s q e < d0 := not_lt.mpr hd
          have h2 : ¬ d < d0 := not_lt.mpr (le_trans hd hle)
          have hnd : ¬ d < entryDist s q e := not_lt.mpr hle
          simp [hle, h1, h2, hnd]
        · push_neg at hle
          simp [not_le.mpr hle]

theorem foldl_stepBest_none (s : ℚ → ℚ) (q : Features) (l : List BarkIndexEntry) :
    l.foldl (stepBest s q) none = bestOf s q l := by
  cases l with
  | nil => simp [bestOf]
  | cons e t =>
    simp only [List.foldl_cons, stepBest]
    rw [foldl_stepBest_some]
    rcases hb : bestOf s q t with _ | ⟨d, fn⟩
    · simp [bestOf, hb]
    · simp only [bestOf, hb]
      by_cases hle : entryDist s q e ≤ d
      · have : ¬ d < entryDist s q e := not_lt.mpr hle
        simp [this, hle]
      · push_neg at hle
        simp [hle, not_le.mpr hle]

theorem bestOf_eq_none_iff (s : ℚ → ℚ) (q : Features) (l : List BarkIndexEntry) :
    bestOf s q l = none ↔ l = [] := by
  cases l with
  | nil => simp [bestOf]
  | cons e t =>
    simp only [bestOf]
    rcases bestOf s q t with _ | ⟨d, fn⟩
    · simp
    · by_cases hle : entryDist s q e ≤ d <;> simp [hle]

theorem bestOf_min (s : ℚ → ℚ) (q : Features) {l : List BarkIndexEntry} {d : ℚ} {fn : String}
    (h : bestOf s q l = some (d, fn)) : ∀ e ∈ l, d ≤ entryDist s q e := by
  induction l generalizing d fn with
  | nil => simp [bestOf] at h
  | cons e t ih =>
    simp only [bestOf] at h
    rcases hb : bestOf s q t with _ | ⟨d', fn'⟩
    · rw [hb] at h
      obtain ⟨rfl, rfl⟩ : entryDist s q e = d ∧ e.filename = fn := by simpa using h
      have ht : t = [] := (bestOf_eq_none_iff s q t).mp hb
      simp [ht]
    · rw [hb] at h
      simp only [] at h
      split_ifs at h with hle
      · obtain ⟨rfl, rfl⟩ : entryDist s q e = d ∧ e.filename = fn := by simpa using h
        intro x hx
        rcases List.mem_cons.mp hx with rfl | hx
        · exact le_rfl
        · exact le_trans hle (ih hb x hx)
      · obtain ⟨rfl, rfl⟩ : d' = d ∧ fn' = fn := by simpa using h
        intro x hx
        rcases List.mem_cons.mp hx with rfl | hx
        · push_neg at hle
          exact le_of_lt hle
        · exact ih hb x hx

theorem bestOf_first (s : ℚ → ℚ) (q : Features) {l : List BarkIndexEntry} {d : ℚ} {fn : String}
    (h : bestOf s q l = some (d, fn)) :
    ∃ w, l.find? (fun e => decide (entryDist s q e = d)) = some w ∧ fn = w.filename := by
  induction l generalizing d fn with
  | nil => simp [bestOf] at h
  | cons e t ih =>
    simp only [bestOf] at h
    rcases hb : bestOf s q t with _ | ⟨d', fn'⟩
    · rw [hb] at h
      obtain ⟨rfl, rfl⟩ : entryDist s q e = d ∧ e.filename = fn := by simpa using h
      exact ⟨e, by simp [List.find?], rfl⟩
    · rw [hb] at h
      simp only [] at h
      split_ifs at h with hle
      · obtain ⟨rfl, rfl⟩ : entryDist s q e = d ∧ e.filename = fn := by simpa using h
        exact ⟨e, by simp [List.find?], rfl⟩
      · obtain ⟨rfl, rfl⟩ : d' = d ∧ fn' = fn := by simpa using h
        push_neg at hle
        obtain ⟨w, hw, hwfn⟩ := ih hb
        refine ⟨w, ?_, hwfn⟩
        rw [List.find?_cons]
        have hne : ¬ entryDist s q e = d' := ne_of_gt hle
        simp [hne, hw]

theorem lookupBest_bestBySpecies (s : ℚ → ℚ) (q : Features) (entries : List BarkIndexEntry)
    (k : String) :
    lookupBest k (bestBySpecies s q entries)
      = bestOf s q (entries.filter (fun e => decide (e.speciesKey = k))) := by
  unfold bestBySpecies
  rw [lookupBest_foldl]
  simp [lookupBest, foldl_stepBest_none]

theorem bestBySpecies_keys_nodup (s : ℚ → ℚ) (q : Features) (entries : List BarkIndexEntry) :
    ((bestBySpecies s q entries).map Prod.fst).Nodup := by
  unfold bestBySpecies
  suffices H : ∀ acc : List (String × ℚ × String), (acc.map Prod.fst).Nodup →
      ((entries.foldl
        (fun a e => insertBest a e.speciesKey (entryDist s q e) e.filename) acc).map
          Prod.fst).Nodup by
    exact H [] (by simp)
  induction entries with
  | nil => intro acc h; simpa
  | cons e t ih =>
    intro acc h
    exact ih _ (keys_insertBest_nodup h _ _)

theorem bestBySpecies_mem_keys (s : ℚ → ℚ) (q : Features) (entries : List BarkIndexEntry)
    (k : String) :
    k ∈ (bestBySpecies s q entries).map Prod.fst
      ↔ k ∈ entries.map BarkIndexEntry.speciesKey := by
  rw [← not_iff_not, ← lookupBest_eq_none_iff, lookupBest_bestBySpecies,
    bestOf_eq_none_iff, List.filter_eq_nil_iff]
  simp [List.mem_map]

/-- **C1**: the label-reduction step of `matchBarkPhoto` produces, for every
query feature vector and reference index, exactly one candidate per distinct
label present in the index (the reduced map's keys are pairwise distinct and
are exactly the labels of the index); the candidate's distance is the
minimum distance over all of that label's entries, and its `sourceRef`
(`filename`) is that of the winning entry — on equal distances the
first-encountered entry in index iteration order wins (it is the first
entry of that label attaining the minimum). -/
theorem matchBarkPhoto_label_reduction (s : ℚ → ℚ) (q : Features) (idx : BarkIndex) :
    (((bestBySpecies s q idx.entries).map Prod.fst).Nodup ∧
      (∀ k : String, k ∈ (bestBySpecies s q idx.entries).map Prod.fst ↔
        k ∈ idx.entries.map BarkIndexEntry.speciesKey)) ∧
    ∀ k d fn, lookupBest k (bestBySpecies s q idx.entries) = some (d, fn) →
      (∀ e ∈ idx.entries, e.speciesKey = k → d ≤ entryDist s q e) ∧
      ∃ w, (idx.entries.filter (fun e => decide (e.speciesKey = k))).find?
            (fun e => decide (entryDist s q e = d)) = some w ∧ fn = w.filename ∧
            w.speciesKey = k ∧ entryDist s q w = d := by
  refine ⟨⟨bestBySpecies_keys_nodup s q idx.entries,
      fun k => bestBySpecies_mem_keys s q idx.entries k⟩, ?_⟩
  intro k d fn h
  rw [lookupBest_bestBySpecies] at h
  constructor
  · intro e he hek
    exact bestOf_min s q h e (by simp [List.mem_filter, he, hek])
  · obtain ⟨w, hw, hfn⟩ := bestOf_first s q h
    have hwd : entryDist s q w = d := by simpa using List.find?_some hw
    have hwk : w.speciesKey = k := by
      have := List.mem_of_find?_eq_some hw
      simpa using (List.mem_filter.mp this).2
    exact ⟨w, hw, hfn, hwk, hwd⟩

/-! ### The ranking and confidence-normalisation stage -/

theorem scoreCandidates_length (l : List Candidate) :
    (scoreCandidates l).length = l.length := by
  cases l with
  | nil => simp [scoreCandidates]
  | cons c0 cs => simp [scoreCandidates, List.enum_length]

theorem scoreCandidates_get (c0 : Candidate) (cs : List Candidate) (i : ℕ)
    (h : i < (scoreCandidates (c0 :: cs)).length) :
    (scoreCandidates (c0 :: cs)).get ⟨i, h⟩ =
      { rank := i + 1
        speciesKey := ((c0 :: cs).getD i c0).speciesKey
        filename := ((c0 :: cs).getD i c0).filename
        distance := ((c0 :: cs).getD i c0).dist
        confidence := clampQ (lerp 0.95 0.55 (clampQ
            ((((c0 :: cs).getD i c0).dist - c0.dist)
              / max 1e-9 ((cs.getLastD c0).dist - c0.dist)) 0 1)) 0.05 0.99 } := by
  have hi : i < (c0 :: cs).length := by
    simpa [scoreCandidates_length] using h
  rw [List.getD_eq_getElem (c0 :: cs) c0 hi]
  simp [scoreCandidates, List.get_eq_getElem, List.getElem_map, List.getElem_enum]

theorem scoreCandidates_map_keys (l : List Candidate) :
    (scoreCandidates l).map MatchResult.speciesKey = l.map Candidate.speciesKey := by
  cases l with
  | nil => simp [scoreCandidates]
  | cons c0 cs =>
    simp only [scoreCandidates, List.map_map]
    have : (MatchResult.speciesKey ∘ fun p : ℕ × Candidate =>
        ({ rank := p.1 + 1, speciesKey := p.2.speciesKey, filename := p.2.filename,
           distance := p.2.dist,
           confidence := clampQ (lerp 0.95 0.55 (clampQ ((p.2.dist - c0.dist)
             / max 1e-9 ((cs.getLastD c0).dist - c0.dist)) 0 1)) 0.05 0.99 } : MatchResult))
        = Candidate.speciesKey ∘ Prod.snd := rfl
    rw [this, ← List.map_map, List.enum_map_snd]

theorem confidence_antitone {best worst d1 d2 : ℚ} (h : d1 ≤ d2) :
    clampQ (lerp 0.95 0.55 (clampQ ((d2 - best) / max 1e-9 (worst - best)) 0 1)) 0.05 0.99
      ≤ clampQ (lerp 0.95 0.55 (clampQ ((d1 - best) / max 1e-9 (worst - best)) 0 1))
          0.05 0.99 := by
  have hden : (0 : ℚ) < max 1e-9 (worst - best) :=
    lt_of_lt_of_le (by norm_num) (le_max_left _ _)
  refine clampQ_mono _ _ (lerp_anti (by norm_num) (clampQ_mono _ _ ?_))
  exact (div_le_div_iff_of_pos_right hden).mpr (by linarith)

theorem rankedCandidates_pairwise (s : ℚ → ℚ) (q : Features) (entries : List BarkIndexEntry)
    (topK : ℤ) :
    (rankedCandidates s q entries topK).Pairwise (fun a b => a.dist ≤ b.dist) := by
  unfold rankedCandidates jsSliceTo
  refine List.Pairwise.sublist (List.take_sublist _ _) ?_
  have hs := @List.sorted_mergeSort Candidate
    (fun a b : Candidate => decide (a.dist ≤ b.dist))
    (fun a b c hab hbc => by
      simp only [decide_eq_true_eq] at *
      exact le_trans hab hbc)
    (fun a b => by
      simp only [Bool.or_eq_true, decide_eq_true_eq]
      exact le_total a.dist b.dist)
    ((bestBySpecies s q entries).map
      (fun p => ({ speciesKey := p.1, dist := p.2.1, filename := p.2.2 } : Candidate)))
  exact hs.imp (by simp)

theorem rankedCandidates_keys_nodup (s : ℚ → ℚ) (q : Features) (entries : List BarkIndexEntry)
    (topK : ℤ) :
    ((rankedCandidates s q entries topK).map Candidate.speciesKey).Nodup := by
  unfold rankedCandidates jsSliceTo
  refine List.Nodup.sublist (List.Sublist.map _ (List.take_sublist _ _)) ?_
  have hperm : ((((bestBySpecies s q entries).map
        (fun p => ({ speciesKey := p.1, dist := p.2.1, filename := p.2.2 } : Candidate))).mergeSort
          (fun a b => decide (a.dist ≤ b.dist))).map Candidate.speciesKey).Perm
      ((bestBySpecies s q entries).map Prod.fst) := by
    have h1 := (List.mergeSort_perm ((bestBySpecies s q entries).map
        (fun p => ({ speciesKey := p.1, dist := p.2.1, filename := p.2.2 } : Candidate)))
      (fun a b => decide (a.dist ≤ b.dist))).map Candidate.speciesKey
    simpa [List.map_map, Function.comp] using h1
  rw [hperm.nodup_iff]
  exact bestBySpecies_keys_nodup s q entries

theorem matchBarkPhoto_of_blank (s : ℚ → ℚ) (img : RawImage) (idx : BarkIndex) (topK : ℤ)
    (h : (analyzeImageQuality s img).isTooBlank = true) :
    matchBarkPhoto s img idx topK = [] := by
  simp [matchBarkPhoto, h]

theorem matchBarkPhoto_of_not_blank (s : ℚ → ℚ) (img : RawImage) (idx : BarkIndex) (topK : ℤ)
    (h : (analyzeImageQuality s img).isTooBlank = false) :
    matchBarkPhoto s img idx topK
      = scoreCandidates
          (rankedCandidates s (extractFeaturesFromRGBA s img) idx.entries topK) := by
  simp [matchBarkPhoto, h]

/-- **C3**: in every result list returned by `matchBarkPhoto`, rank fields
are strictly increasing starting at 1 (`rank` at position `i` is `i + 1`),
confidence is non-increasing as rank increases, every confidence lies in
`[0.05, 0.99]`, and the label keys of the results are pairwise distinct. -/
theorem matchBarkPhoto_result_invariants (s : ℚ → ℚ) (img : RawImage) (idx : BarkIndex)
    (topK : ℤ) :
    (∀ i (h : i < (matchBarkPhoto s img idx topK).length),
        ((matchBarkPhoto s img idx topK).get ⟨i, h⟩).rank = i + 1) ∧
    (matchBarkPhoto s img idx topK).Pairwise (fun a b => b.confidence ≤ a.confidence) ∧
    (∀ r ∈ matchBarkPhoto s img idx topK,
        (0.05 : ℚ) ≤ r.confidence ∧ r.confidence ≤ 0.99) ∧
    ((matchBarkPhoto s img idx topK).map MatchResult.speciesKey).Nodup := by
  rcases hb : (analyzeImageQuality s img).isTooBlank with _ | _
  case true =>
    simp [matchBarkPhoto_of_blank s img idx topK hb]
  case false =>
  rw [matchBarkPhoto_of_not_blank s img idx topK hb]
  set q := extractFeaturesFromRGBA s img with hq
  rcases hr : rankedCandidates s q idx.entries topK with _ | ⟨c0, cs⟩
  · simp [scoreCandidates]
  · have hsorted : (c0 :: cs).Pairwise (fun a b => a.dist ≤ b.dist) := by
      rw [← hr]; exact rankedCandidates_pairwise s q idx.entries topK
    refine ⟨?_, ?_, ?_, ?_⟩
    · intro i h
      rw [scoreCandidates_get]
    · rw [List.pairwise_iff_get]
      intro i j hij
      rw [scoreCandidates_get, scoreCandidates_get]
      simp only
      have hi : (i : ℕ) < (c0 :: cs).length := by
        have := i.isLt; simpa [scoreCandidates_length] using this
      have hj : (j : ℕ) < (c0 :: cs).length := by
        have := j.isLt; simpa [scoreCandidates_length] using this
      have hdist : ((c0 :: cs).getD (i : ℕ) c0).dist ≤ ((c0 :: cs).getD (j : ℕ) c0).dist := by
        rw [List.getD_eq_getElem _ _ hi, List.getD_eq_getElem _ _ hj]
        have := List.pairwise_iff_get.mp hsorted ⟨i, hi⟩ ⟨j, hj⟩ (by simpa using hij)
        simpa using this
      exact confidence_antitone hdist
    · intro r hr2
      obtain ⟨n, hn⟩ := List.mem_iff_get.mp hr2
      rw [scoreCandidates_get] at hn
      rw [← hn]
      exact clampQ_bounds _ _ _ (by norm_num)
    · rw [scoreCandidates_map_keys]
      rw [← hr]
      exact rankedCandidates_keys_nodup s q idx.entries topK

theorem getLastD_eq_get {α : Type} (l : List α) (d : α) (h : l ≠ []) :
    l.getLastD d = l.get ⟨l.length - 1, by
      cases l with
      | nil => exact absurd rfl h
      | cons a t => simp⟩ := by
  rw [List.getLastD_eq_getLast?, List.getLast?_eq_getLast l h, Option.getD_some,
    List.getLast_eq_get]

/-- **C2**: the distance computed by `matchBarkPhoto` equals the Euclidean
norm of the difference of the 64-bin histograms plus `0.25` times the
absolute difference of the edge scalars; it vanishes on identical feature
vectors and is symmetric in the two feature vectors. -/
theorem matchBarkPhoto_distance_metric (s : ℚ → ℚ) (h0 : s 0 = 0) (a b : Features)
    (m1 m2 : BarkIndexEntry) (hm1 : m1.features = b) (hm2 : m2.features = a)
    (ha : a.hist.length = 64) (hb : b.hist.length = 64) :
    entryDist s a m1 = euclidean s a.hist b.hist + 0.25 * |a.edge - b.edge| ∧
    entryDist s a m2 = 0 ∧
    entryDist s a m1 = entryDist s b m2 := by
  refine ⟨?_, ?_, ?_⟩
  · rw [entryDist, hm1]
    ring
  · rw [entryDist, hm2]
    simp only [euclidean, sub_self, ne_eq, OfNat.ofNat_ne_zero, not_false_eq_true,
      zero_pow, Finset.sum_const_zero, abs_zero, zero_mul, add_zero]
    exact h0
  · rw [entryDist, entryDist, hm1, hm2]
    have hsum : (∑ i ∈ Finset.range a.hist.length, (a.hist.getD i 0 - b.hist.getD i 0) ^ 2)
        = ∑ i ∈ Finset.range b.hist.length, (b.hist.getD i 0 - a.hist.getD i 0) ^ 2 := by
      rw [ha, hb]
      exact Finset.sum_congr rfl (fun i _ => by ring)
    rw [euclidean, euclidean, hsum, abs_sub_comm]

theorem get_cons_lastD {α : Type} (c0 : α) (cs : List α) :
    (c0 :: cs).get ⟨cs.length, by simp⟩ = cs.getLastD c0 := by
  induction cs generalizing c0 with
  | nil => rfl
  | cons c1 ct ih =>
    rw [List.getLastD_cons]
    exact ih c1

theorem scoreCandidates_getD (c0 : Candidate) (cs : List Candidate) (i : ℕ)
    (hi : i < cs.length + 1) (dflt : MatchResult) :
    (scoreCandidates (c0 :: cs)).getD i dflt =
      { rank := i + 1
        speciesKey := ((c0 :: cs).getD i c0).speciesKey
        filename := ((c0 :: cs).getD i c0).filename
        distance := ((c0 :: cs).getD i c0).dist
        confidence := clampQ (lerp 0.95 0.55 (clampQ
            ((((c0 :: cs).getD i c0).dist - c0.dist)
              / max 1e-9 ((cs.getLastD c0).dist - c0.dist)) 0 1)) 0.05 0.99 } := by
  have hlt : i < (scoreCandidates (c0 :: cs)).length := by
    rw [scoreCandidates_length]
    simpa using hi
  have hget := scoreCandidates_get c0 cs i hlt
  rw [List.get_eq_getElem] at hget
  rw [List.getD_eq_getElem _ _ hlt]
  exact hget

/-- **C4**: for every non-empty result list, writing `bestDist` for the
distance at rank 1 and `worstDist` for the distance at the last retained
rank, each returned confidence equals
`clamp(lerp(0.95, 0.55, clamp((d − bestDist)/max(1e-9, worstDist − bestDist), 0, 1)), 0.05, 0.99)`. -/
theorem matchBarkPhoto_confidence_normalisation (s : ℚ → ℚ) (img : RawImage)
    (idx : BarkIndex) (topK : ℤ) (r0 : MatchResult) (rest : List MatchResult)
    (h : matchBarkPhoto s img idx topK = r0 :: rest) :
    ∀ r ∈ r0 :: rest,
      r.confidence = clampQ (lerp 0.95 0.55 (clampQ
        ((r.distance - r0.distance)
          / max 1e-9 ((rest.getLastD r0).distance - r0.distance)) 0 1)) 0.05 0.99 := by
  rcases hb : (analyzeImageQuality s img).isTooBlank with _ | _
  case true =>
    rw [matchBarkPhoto_of_blank s img idx topK hb] at h
    exact absurd h (by simp)
  case false =>
  rw [matchBarkPhoto_of_not_blank s img idx topK hb] at h
  set q := extractFeaturesFromRGBA s img with hqdef
  rcases hr : rankedCandidates s q idx.entries topK with _ | ⟨c0, cs⟩
  · rw [hr] at h
    exact absurd h (by simp [scoreCandidates])
  rw [hr] at h
  have hlen2 : rest.length = cs.length := by
    have := congrArg List.length h
    simp [scoreCandidates_length] at this
    omega
  have hr0dist : r0.distance = c0.dist := by
    have h1 := congrArg (fun l => (l.getD 0 r0).distance) h
    simp only at h1
    rw [scoreCandidates_getD c0 cs 0 (by omega) r0] at h1
    simpa using h1.symm
  have hworst : (rest.getLastD r0).distance = (cs.getLastD c0).dist := by
    have h1 := congrArg (fun l => (l.getD cs.length r0).distance) h
    simp only at h1
    rw [scoreCandidates_getD c0 cs cs.length (by omega) r0] at h1
    simp only at h1
    have h2 : ((c0 :: cs).getD cs.length c0) = cs.getLastD c0 := by
      have hg := get_cons_lastD c0 cs
      rw [List.get_eq_getElem] at hg
      rw [List.getD_eq_getElem _ _ (by simp : cs.length < (c0 :: cs).length)]
      simpa using hg
    have h3 : (r0 :: rest).getD cs.length r0 = rest.getLastD r0 := by
      have hg := get_cons_lastD r0 rest
      rw [List.get_eq_getElem] at hg
      rw [← hlen2, List.getD_eq_getElem _ _ (by simp : rest.length < (r0 :: rest).length)]
      simpa using hg
    rw [h2] at h1
    rw [h3] at h1
    exact h1.symm
  intro r hrmem
  have hrmem2 : r ∈ scoreCandidates (c0 :: cs) := by rw [h]; exact hrmem
  obtain ⟨n, hn⟩ := List.mem_iff_get.mp hrmem2
  obtain ⟨i, hi⟩ := n
  rw [scoreCandidates_get] at hn
  have hrdist : r.distance = ((c0 :: cs).getD i c0).dist := by rw [← hn]
  have hrconf : r.confidence = clampQ (lerp 0.95 0.55 (clampQ
      ((((c0 :: cs).getD i c0).dist - c0.dist)
        / max 1e-9 ((cs.getLastD c0).dist - c0.dist)) 0 1)) 0.05 0.99 := by
    rw [← hn]
  rw [hrconf, hrdist, hr0dist, hworst]

theorem bestBySpecies_ne_nil (s : ℚ → ℚ) (q : Features) {entries : List BarkIndexEntry}
    (h : entries ≠ []) : bestBySpecies s q entries ≠ [] := by
  rcases entries with _ | ⟨e, t⟩
  · exact absurd rfl h
  · intro hc
    have hm := (bestBySpecies_mem_keys s q (e :: t) e.speciesKey).mpr (by simp)
    rw [hc] at hm
    simp at hm

theorem rankedCandidates_topK_one (s : ℚ → ℚ) (q : Features) {entries : List BarkIndexEntry}
    (h : entries ≠ []) : ∃ c, rankedCandidates s q entries 1 = [c] := by
  unfold rankedCandidates jsSliceTo
  rw [if_neg (by norm_num)]
  have hlen : (((bestBySpecies s q entries).map
      (fun p => ({ speciesKey := p.1, dist := p.2.1, filename := p.2.2 } : Candidate))).mergeSort
        (fun a b => decide (a.dist ≤ b.dist))).length
      = (bestBySpecies s q entries).length := by
    rw [(List.mergeSort_perm _ _).length_eq, List.length_map]
  rcases hml : ((bestBySpecies s q entries).map
      (fun p => ({ speciesKey := p.1, dist := p.2.1, filename := p.2.2 } : Candidate))).mergeSort
        (fun a b => decide (a.dist ≤ b.dist)) with _ | ⟨c, rest⟩
  · rw [hml] at hlen
    have := bestBySpecies_ne_nil s q h
    rcases hbs : bestBySpecies s q entries with _ | _
    · exact absurd hbs this
    · rw [hbs] at hlen
      simp at hlen
  · exact ⟨c, by simp [hml]⟩

/-- **C9** (amended): with `topK = 1`, a query against a non-empty index
whose photo passes the quality gate returns exactly one result, and that
result's confidence is exactly `0.95` (`t` collapses to 0 when
`bestDist = worstDist`). -/
theorem matchBarkPhoto_topK_one (s : ℚ → ℚ) (img : RawImage) (idx : BarkIndex)
    (hne : idx.entries ≠ [])
    (hq : (analyzeImageQuality s img).isTooBlank = false) :
    ∃ r : MatchResult, matchBarkPhoto s img idx 1 = [r] ∧ r.confidence = 0.95 ∧ r.rank = 1 := by
  rw [matchBarkPhoto_of_not_blank s img idx 1 hq]
  obtain ⟨c, hc⟩ := rankedCandidates_topK_one s (extractFeaturesFromRGBA s img) hne
  rw [hc]
  have hsc : scoreCandidates [c]
      = [{ rank := 1, speciesKey := c.speciesKey, filename := c.filename,
           distance := c.dist, confidence := 0.95 }] := by
    simp only [scoreCandidates, List.enum, List.enumFrom, List.map_cons, List.map_nil,
      List.getLastD, sub_self, zero_div, List.cons.injEq, and_true]
    norm_num [clampQ, lerp]
  rw [hsc]
  exact ⟨_, rfl, rfl, rfl⟩

theorem bestBySpecies_length_eq_card (s : ℚ → ℚ) (q : Features)
    (entries : List BarkIndexEntry) :
    (bestBySpecies s q entries).length
      = (entries.map BarkIndexEntry.speciesKey).toFinset.card := by
  have h1 : ((bestBySpecies s q entries).map Prod.fst).toFinset
      = (entries.map BarkIndexEntry.speciesKey).toFinset := by
    ext k
    simp only [List.mem_toFinset]
    exact bestBySpecies_mem_keys s q entries k
  calc (bestBySpecies s q entries).length
      = ((bestBySpecies s q entries).map Prod.fst).length := (List.length_map _ _).symm
    _ = ((bestBySpecies s q entries).map Prod.fst).toFinset.card :=
        (List.toFinset_card_of_nodup (bestBySpecies_keys_nodup s q entries)).symm
    _ = (entries.map BarkIndexEntry.speciesKey).toFinset.card := by rw [h1]

/-- **C7** (amended): for every non-negative integer `topK`, a query returns
at most `min topK N` results, where `N` is the number of distinct labels in
the index.  (For negative `topK`, JS `slice(0, topK)` counts from the end of
the array and the bound fails.) -/
theorem matchBarkPhoto_topK_bound (s : ℚ → ℚ) (img : RawImage) (idx : BarkIndex)
    (topK : ℤ) (h : 0 ≤ topK) :
    ((matchBarkPhoto s img idx topK).length : ℤ)
      ≤ min topK ((idx.entries.map BarkIndexEntry.speciesKey).toFinset.card : ℤ) := by
  rcases hb : (analyzeImageQuality s img).isTooBlank with _ | _
  case true =>
    rw [matchBarkPhoto_of_blank s img idx topK hb]
    simp only [List.length_nil, Nat.cast_zero]
    exact le_min h (by positivity)
  case false =>
  rw [matchBarkPhoto_of_not_blank s img idx topK hb]
  set q := extractFeaturesFromRGBA s img with hqdef
  rcases hr : rankedCandidates s q idx.entries topK with _ | ⟨c0, cs⟩
  · simp only [scoreCandidates, List.length_nil, Nat.cast_zero]
    exact le_min h (by positivity)
  rw [← hr, scoreCandidates_length]
  have hA : ((rankedCandidates s q idx.entries topK).length : ℤ) ≤ topK := by
    unfold rankedCandidates jsSliceTo
    rw [if_neg (by omega)]
    have h1 : (List.take topK.toNat (((bestBySpecies s q idx.entries).map
        (fun p => ({ speciesKey := p.1, dist := p.2.1, filename := p.2.2 } : Candidate))).mergeSort
          (fun a b => decide (a.dist ≤ b.dist)))).length ≤ topK.toNat := by
      rw [List.length_take]
      exact min_le_left _ _
    calc ((List.take topK.toNat _).length : ℤ) ≤ (topK.toNat : ℤ) := by exact_mod_cast h1
      _ = topK := by omega
  have hB : (rankedCandidates s q idx.entries topK).length
      ≤ (idx.entries.map BarkIndexEntry.speciesKey).toFinset.card := by
    unfold rankedCandidates jsSliceTo
    rw [← bestBySpecies_length_eq_card s q idx.entries]
    calc (List.take _ _).length
        ≤ (((bestBySpecies s q idx.entries).map
            (fun p => ({ speciesKey := p.1, dist := p.2.1, filename := p.2.2 } : Candidate))).mergeSort
              (fun a b => decide (a.dist ≤ b.dist))).length := by
          rw [List.length_take]
          exact min_le_right _ _
      _ = (bestBySpecies s q idx.entries).length := by
          rw [(List.mergeSort_perm _ _).length_eq, List.length_map]
  exact le_min hA (by exact_mod_cast hB)

/-- **C5**: whenever the decoded image's quality metrics satisfy
`isTooBlank`, `matchBarkPhoto` returns the empty result list, regardless of
index contents and `topK`; in particular mean luminance below 18 together
with luminance standard deviation below 10 always yields an empty result
set. -/
theorem matchBarkPhoto_blank_gate (s : ℚ → ℚ) (img : RawImage) (idx : BarkIndex) (topK : ℤ) :
    ((analyzeImageQuality s img).isTooBlank = true → matchBarkPhoto s img idx topK = []) ∧
    ((analyzeImageQuality s img).mean < 18 → (analyzeImageQuality s img).std < 10 →
      matchBarkPhoto s img idx topK = []) := by
  constructor
  · exact matchBarkPhoto_of_blank s img idx topK
  · intro hm hs
    apply matchBarkPhoto_of_blank
    by_cases hn : img.width * img.height = 0
    · simp [analyzeImageQuality, hn]
    · simp only [analyzeImageQuality, if_neg hn] at hm hs ⊢
      simp only [Bool.or_eq_true, Bool.and_eq_true, decide_eq_true_eq]
      push_cast at hm hs ⊢
      exact Or.inl ⟨hm, hs⟩

/-! ### The duplicated edge statistic -/

theorem interior_sum {M : Type} [AddCommMonoid M] (w h : ℕ) (f : ℕ → ℕ → M) :
    (∑ y ∈ Finset.range h, ∑ x ∈ Finset.range w,
        if 0 < x ∧ x < w - 1 ∧ 0 < y ∧ y < h - 1 then f x y else 0)
      = ∑ y ∈ Finset.Ico 1 (h - 1), ∑ x ∈ Finset.Ico 1 (w - 1), f x y := by
  have hfilh : Finset.filter (fun y => 0 < y ∧ y < h - 1) (Finset.range h)
      = Finset.Ico 1 (h - 1) := by
    ext y
    simp only [Finset.mem_filter, Finset.mem_range, Finset.mem_Ico]
    omega
  have hfilw : Finset.filter (fun x => 0 < x ∧ x < w - 1) (Finset.range w)
      = Finset.Ico 1 (w - 1) := by
    ext x
    simp only [Finset.mem_filter, Finset.mem_range, Finset.mem_Ico]
    omega
  have hstep : ∀ y, (∑ x ∈ Finset.range w,
      if 0 < x ∧ x < w - 1 ∧ 0 < y ∧ y < h - 1 then f x y else 0)
      = if 0 < y ∧ y < h - 1 then ∑ x ∈ Finset.Ico 1 (w - 1), f x y else 0 := by
    intro y
    by_cases hy : 0 < y ∧ y < h - 1
    · rw [if_pos hy]
      have hx : ∀ x, (if 0 < x ∧ x < w - 1 ∧ 0 < y ∧ y < h - 1 then f x y else 0)
          = if 0 < x ∧ x < w - 1 then f x y else 0 := by
        intro x
        by_cases hxx : 0 < x ∧ x < w - 1
        · simp [hxx, hy]
        · simp only [hxx, if_false]
          have : ¬(0 < x ∧ x < w - 1 ∧ 0 < y ∧ y < h - 1) := by tauto
          simp [this]
      rw [Finset.sum_congr rfl (fun x _ => hx x), ← Finset.sum_filter, hfilw]
    · rw [if_neg hy]
      apply Finset.sum_eq_zero
      intro x _
      have : ¬(0 < x ∧ x < w - 1 ∧ 0 < y ∧ y < h - 1) := by tauto
      simp [this]
  rw [Finset.sum_congr rfl (fun y _ => hstep y), ← Finset.sum_filter, hfilh]

/-- **C8**: for every pixel grid, the `edgeNorm` computed by the quality
gate and the `edge` scalar computed by the feature extractor are numerically
identical — the same average interior central-difference gradient magnitude
divided by 100 and clamped to `[0, 1]`, despite the two functions computing
it with differently structured loops. -/
theorem edgeNorm_refines_edge (s : ℚ → ℚ) (img : RawImage) :
    (analyzeImageQuality s img).edgeNorm = (extractFeaturesFromRGBA s img).edge := by
  by_cases hn : img.width * img.height = 0
  · have hwh : img.width = 0 ∨ img.height = 0 := Nat.mul_eq_zero.mp hn
    simp only [analyzeImageQuality, if_pos hn, extractFeaturesFromRGBA]
    have hc : (∑ y ∈ Finset.range img.height, ∑ x ∈ Finset.range img.width,
        if 0 < x ∧ x < img.width - 1 ∧ 0 < y ∧ y < img.height - 1 then 1 else 0 : ℕ) = 0 := by
      rcases hwh with hz | hz <;> simp [hz]
    rw [hc]
    norm_num [clampQ]
  · simp only [analyzeImageQuality, if_neg hn, extractFeaturesFromRGBA]
    rw [interior_sum img.width img.height (fun x y => gradMag s img x y),
      interior_sum img.width img.height (fun _ _ => (1 : ℕ))]
    rfl

/-- **C10**: a decoded grid with positive area but width at most 2 or height
at most 2 has no interior pixels, so the quality gate's `edgeNorm` is 0,
which is below the 0.02 threshold; `isTooBlank` holds and `matchBarkPhoto`
returns the empty list for every such image, regardless of pixel values,
index contents and `topK`. -/
theorem matchBarkPhoto_thin_image (s : ℚ → ℚ) (img : RawImage) (idx : BarkIndex) (topK : ℤ)
    (hpos : 0 < img.width * img.height)
    (hsmall : img.width ≤ 2 ∨ img.height ≤ 2) :
    (analyzeImageQuality s img).edgeNorm = 0 ∧
    (analyzeImageQuality s img).isTooBlank = true ∧
    matchBarkPhoto s img idx topK = [] := by
  have hn : ¬ img.width * img.height = 0 := by omega
  have hIco : Finset.Ico 1 (img.width - 1) = ∅ ∨ Finset.Ico 1 (img.height - 1) = ∅ := by
    rcases hsmall with hw | hh
    · exact Or.inl (Finset.Ico_eq_empty (by omega))
    · exact Or.inr (Finset.Ico_eq_empty (by omega))
  have hedgeCount : (∑ _y ∈ Finset.Ico 1 (img.height - 1),
      ∑ _x ∈ Finset.Ico 1 (img.width - 1), (1 : ℕ)) = 0 := by
    rcases hIco with hw | hh
    · simp [hw]
    · simp [hh]
  have hen : (analyzeImageQuality s img).edgeNorm = 0 := by
    simp only [analyzeImageQuality, if_neg hn]
    rw [hedgeCount]
    norm_num [clampQ]
  have hbl : (analyzeImageQuality s img).isTooBlank = true := by
    simp only [analyzeImageQuality, if_neg hn] at hen ⊢
    rw [hen]
    norm_num
  exact ⟨hen, hbl, matchBarkPhoto_of_blank s img idx topK hbl⟩

/-! ### The histogram mass argument -/

theorem binIndex_bounds (v : ℚ) : 0 ≤ binIndex v ∧ binIndex v ≤ 3 := by
  unfold binIndex BINS
  constructor
  · exact le_min (by norm_num) (le_max_left 0 _)
  · calc min (4 - 1) (max 0 ⌊v / 256 * ((4 : ℤ) : ℚ)⌋) ≤ 4 - 1 := min_le_left _ _
      _ = 3 := by norm_num

theorem pixBucket_bounds (img : RawImage) (x y : ℕ) :
    0 ≤ pixBucket img x y ∧ pixBucket img x y < 64 := by
  obtain ⟨h1, h2⟩ := binIndex_bounds (img.data ((y * img.width + x) * 4 + 0) : ℚ)
  obtain ⟨h3, h4⟩ := binIndex_bounds (img.data ((y * img.width + x) * 4 + 1) : ℚ)
  obtain ⟨h5, h6⟩ := binIndex_bounds (img.data ((y * img.width + x) * 4 + 2) : ℚ)
  simp only [pixBucket, BINS]
  constructor <;> omega

theorem bumpHist_length (l : List ℚ) (i : ℕ) : (bumpHist l i).length = l.length := by
  simp [bumpHist]

theorem bumpHist_sum {l : List ℚ} {i : ℕ} (h : i < l.length) :
    (bumpHist l i).sum = l.sum + 1 := by
  induction l generalizing i with
  | nil => simp at h
  | cons a t ih =>
    cases i with
    | zero =>
      simp [bumpHist]
      ring
    | succ j =>
      have hj : j < t.length := by simpa using h
      simp only [bumpHist, List.set_cons_succ, List.sum_cons, List.getD_cons_succ]
      have := ih hj
      simp only [bumpHist] at this
      rw [this]
      ring

theorem foldl_bumpHist_sum (g : ℕ × ℕ → ℕ) (hg : ∀ p, g p < 64) (ps : List (ℕ × ℕ)) :
    ∀ acc : List ℚ, acc.length = 64 →
      (ps.foldl (fun a p => bumpHist a (g p)) acc).sum = acc.sum + ps.length := by
  induction ps with
  | nil => intro acc _; simp
  | cons p t ih =>
    intro acc hl
    rw [List.foldl_cons]
    rw [ih (bumpHist acc (g p)) (by rw [bumpHist_length, hl])]
    rw [bumpHist_sum (by rw [hl]; exact hg p)]
    simp only [List.length_cons]
    push_cast
    ring

theorem pixList_length (w h : ℕ) : (pixList w h).length = h * w := by
  induction h with
  | zero => simp [pixList]
  | succ k ih =>
    have hstep : pixList w (k + 1) = pixList w k ++ (List.range w).map (fun x => (x, k)) := by
      simp [pixList, List.range_succ]
    rw [hstep, List.length_append, ih]
    simp [Nat.succ_mul]

theorem sum_map_div (l : List ℚ) (d : ℚ) : (l.map (fun c => c / d)).sum = l.sum / d := by
  induction l with
  | nil => simp
  | cons a t ih => simp [ih, add_div]

/-- **C6**: the feature extractor assigns each pixel to exactly one of the
64 histogram buckets — the flat bucket index `(rBin*4 + gBin)*4 + bBin`
built from the per-channel bins `clamp(floor(value/256*4), 0, 3)` always
lies in `[0, 64)` — and for every grid of positive pixel count the
normalised histogram sums to 1.0 within `1e-6`; the extracted edge scalar
always lies in `[0, 1]`. -/
theorem extractFeatures_histogram (s : ℚ → ℚ) (img : RawImage)
    (hpos : 0 < img.width * img.height) :
    (∀ x y : ℕ, 0 ≤ pixBucket img x y ∧ pixBucket img x y < 64) ∧
    (∀ v : ℚ, binIndex v = min 3 (max 0 ⌊v / 256 * 4⌋)) ∧
    |(extractFeaturesFromRGBA s img).hist.sum - 1| ≤ 1e-6 ∧
    (0 ≤ (extractFeaturesFromRGBA s img).edge ∧ (extractFeaturesFromRGBA s img).edge ≤ 1) := by
  refine ⟨pixBucket_bounds img, ?_, ?_, ?_, ?_⟩
  · intro v
    norm_num [binIndex, BINS]
  · have hsum : (extractFeaturesFromRGBA s img).hist.sum = 1 := by
      simp only [extractFeaturesFromRGBA]
      rw [sum_map_div]
      have hg : ∀ p : ℕ × ℕ, (pixBucket img p.1 p.2).toNat < 64 := by
        intro p
        obtain ⟨hb1, hb2⟩ := pixBucket_bounds img p.1 p.2
        omega
      rw [foldl_bumpHist_sum _ hg (pixList img.width img.height)
        (List.replicate (BINS.toNat * BINS.toNat * BINS.toNat) 0)
        (by rw [List.length_replicate]; decide)]
      rw [pixList_length]
      simp only [List.sum_replicate, smul_zero, zero_add]
      rw [show img.height * img.width = img.width * img.height from Nat.mul_comm _ _]
      exact div_self (Nat.cast_ne_zero.mpr (by omega))
    rw [hsum]
    norm_num
  · simp only [extractFeaturesFromRGBA]
    exact le_max_left _ _
  · simp only [extractFeaturesFromRGBA]
    exact max_le (by norm_num) (min_le_left _ _)

/-! ### Concrete sample data -/

/-- A concrete square-root routine for concrete instantiations (the claims
hold for any routine; only `sampleSqrt 0 = 0` and nonnegativity matter). -/
def sampleSqrt : ℚ → ℚ := fun x => max 0 x

/-- Build a decoded image from an explicit flat RGBA byte list. -/
def imageOfBytes (w h : ℕ) (bytes : List ℕ) : RawImage :=
  { data := fun i => bytes.getD i 0, width := w, height := h }

/-- A 1×1 black image: mean 0, std 0, no interior — rejected by the gate. -/
def blankImage : RawImage := imageOfBytes 1 1 [0, 0, 0, 255]

/-- A 3×3 image, all pixels gray value 200 except a black pixel at (0,1):
bright (mean 1600/9) with a strong interior gradient — passes the gate. -/
def sampleImage : RawImage :=
  imageOfBytes 3 3
    [200, 200, 200, 255,  200, 200, 200, 255,  200, 200, 200, 255,
     0, 0, 0, 255,        200, 200, 200, 255,  200, 200, 200, 255,
     200, 200, 200, 255,  200, 200, 200, 255,  200, 200, 200, 255]

/-- An all-zero feature vector of the spec's 64-bin shape. -/
def featZero : Features := { hist := List.replicate 64 0, edge := 0 }

/-- An index entry carrying the all-zero feature vector. -/
def entryZero : BarkIndexEntry :=
  { speciesKey := "A", filename := "a1", features := featZero }

/-- A one-entry index whose entry's features are exactly the features the
extractor produces from `sampleImage` (a reference index built from the
sample photo itself). -/
def sampleIndex : BarkIndex :=
  { entries := [{ speciesKey := "A", filename := "a1",
                  features := extractFeaturesFromRGBA sampleSqrt sampleImage }] }

theorem blankImage_metrics :
    (analyzeImageQuality sampleSqrt blankImage).mean = 0 ∧
    (analyzeImageQuality sampleSqrt blankImage).std = 0 ∧
    (analyzeImageQuality sampleSqrt blankImage).isTooBlank = true := by
  norm_num [analyzeImageQuality, blankImage, imageOfBytes, grayAt, sampleSqrt,
    Finset.sum_range_succ, clampQ]

theorem blankImage_run (idx : BarkIndex) (topK : ℤ) :
    matchBarkPhoto sampleSqrt blankImage idx topK = [] :=
  matchBarkPhoto_of_blank _ _ _ _ blankImage_metrics.2.2

theorem grayAt_eval (img : RawImage) (x y r g b : ℕ)
    (hr : img.data ((y * img.width + x) * 4 + 0) = r)
    (hg : img.data ((y * img.width + x) * 4 + 1) = g)
    (hb : img.data ((y * img.width + x) * 4 + 2) = b) :
    grayAt img x y = 0.299 * (r : ℚ) + 0.587 * (g : ℚ) + 0.114 * (b : ℚ) := by
  simp only [grayAt, hr, hg, hb]

theorem sampleImage_gray_dark : grayAt sampleImage 0 1 = 0 := by
  rw [grayAt_eval sampleImage 0 1 0 0 0 (by decide) (by decide) (by decide)]
  norm_num

theorem sampleImage_gray_lit (x y : ℕ) (hx : x < 3) (hy : y < 3)
    (hxy : ¬ (x = 0 ∧ y = 1)) : grayAt sampleImage x y = 200 := by
  have hbytes : ∀ x, x < 3 → ∀ y, y < 3 → ¬ (x = 0 ∧ y = 1) →
      (sampleImage.data ((y * sampleImage.width + x) * 4 + 0) = 200 ∧
       sampleImage.data ((y * sampleImage.width + x) * 4 + 1) = 200 ∧
       sampleImage.data ((y * sampleImage.width + x) * 4 + 2) = 200) := by decide
  obtain ⟨h1, h2, h3⟩ := hbytes x hx y hy hxy
  rw [grayAt_eval sampleImage x y 200 200 200 h1 h2 h3]
  norm_num

theorem sampleImage_graySum :
    (∑ y ∈ Finset.range 3, ∑ x ∈ Finset.range 3, grayAt sampleImage x y) = 1600 := by
  simp only [Finset.sum_range_succ, Finset.sum_range_zero]
  rw [sampleImage_gray_dark]
  rw [sampleImage_gray_lit 0 0 (by norm_num) (by norm_num) (by simp),
    sampleImage_gray_lit 1 0 (by norm_num) (by norm_num) (by simp),
    sampleImage_gray_lit 2 0 (by norm_num) (by norm_num) (by simp),
    sampleImage_gray_lit 1 1 (by norm_num) (by norm_num) (by simp),
    sampleImage_gray_lit 2 1 (by norm_num) (by norm_num) (by simp),
    sampleImage_gray_lit 0 2 (by norm_num) (by norm_num) (by simp),
    sampleImage_gray_lit 1 2 (by norm_num) (by norm_num) (by simp),
    sampleImage_gray_lit 2 2 (by norm_num) (by norm_num) (by simp)]
  norm_num

theorem sampleImage_gradMag : gradMag sampleSqrt sampleImage 1 1 = 40000 := by
  simp only [gradMag]
  rw [sampleImage_gray_lit 2 1 (by norm_num) (by norm_num) (by simp),
    sampleImage_gray_dark,
    sampleImage_gray_lit 1 2 (by norm_num) (by norm_num) (by simp),
    sampleImage_gray_lit 1 0 (by norm_num) (by norm_num) (by simp)]
  norm_num [sampleSqrt]

theorem sampleImage_not_blank :
    (analyzeImageQuality sampleSqrt sampleImage).isTooBlank = false := by
  have hW : sampleImage.width = 3 := rfl
  have hH : sampleImage.height = 3 := rfl
  have hico : Finset.Ico 1 (3 - 1) = ({1} : Finset ℕ) := by decide
  simp only [analyzeImageQuality, hW, hH]
  rw [if_neg (by norm_num)]
  simp only [hico, Finset.sum_singleton, sampleImage_graySum, sampleImage_gradMag]
  norm_num [clampQ]

/-- The single result produced by running the sample photo against the
one-entry index built from the same photo. -/
def sampleResult : MatchResult :=
  { rank := 1, speciesKey := "A", filename := "a1", distance := 0, confidence := 0.95 }

theorem sampleRun :
    matchBarkPhoto sampleSqrt sampleImage sampleIndex 1 = [sampleResult] := by
  rw [matchBarkPhoto_of_not_blank _ _ _ _ sampleImage_not_blank]
  have hd : entryDist sampleSqrt (extractFeaturesFromRGBA sampleSqrt sampleImage)
      { speciesKey := "A", filename := "a1",
        features := extractFeaturesFromRGBA sampleSqrt sampleImage } = 0 := by
    simp only [entryDist, euclidean]
    norm_num [sampleSqrt]
  have hbs : bestBySpecies sampleSqrt (extractFeaturesFromRGBA sampleSqrt sampleImage)
      sampleIndex.entries = [("A", 0, "a1")] := by
    simp [bestBySpecies, sampleIndex, insertBest, hd]
  have hrk : rankedCandidates sampleSqrt (extractFeaturesFromRGBA sampleSqrt sampleImage)
      sampleIndex.entries 1
      = [{ speciesKey := "A", dist := 0, filename := "a1" }] := by
    simp [rankedCandidates, hbs, jsSliceTo]
  rw [hrk]
  simp only [scoreCandidates, List.enum, List.enumFrom, List.map_cons, List.map_nil,
    List.getLastD, sub_self, zero_div]
  norm_num [sampleResult, clampQ, lerp]

/-! ### Counterexamples and concrete witnesses -/

/-- Counterexample to C7 as stated for arbitrary integers: at `topK = -1`
the bound `length ≤ min topK N` fails (here the blank query returns 0
results, yet `min (-1) N = -1 < 0`; for a passing photo, JS
`slice(0, -1)` would likewise return `N - 1` results). -/
theorem matchBarkPhoto_topK_bound_counterexample :
    ¬ (((matchBarkPhoto sampleSqrt blankImage sampleIndex (-1)).length : ℤ)
        ≤ min (-1 : ℤ)
            ((sampleIndex.entries.map BarkIndexEntry.speciesKey).toFinset.card : ℤ)) := by
  rw [blankImage_run]
  intro hcon
  have hmin := min_le_left (-1 : ℤ)
    ((sampleIndex.entries.map BarkIndexEntry.speciesKey).toFinset.card : ℤ)
  simp only [List.length_nil, Nat.cast_zero] at hcon
  omega

/-- Counterexample to C9 as stated: a non-empty index does not guarantee a
result — a gate-rejected (blank) photo yields the empty list even with
`topK = 1` and a non-empty index. -/
theorem matchBarkPhoto_topK_one_counterexample :
    sampleIndex.entries ≠ [] ∧
    ¬ ∃ r : MatchResult, matchBarkPhoto sampleSqrt blankImage sampleIndex 1 = [r]
        ∧ r.confidence = 0.95 := by
  refine ⟨by simp [sampleIndex], ?_⟩
  rintro ⟨r, hr, _⟩
  rw [blankImage_run] at hr
  exact absurd hr (by simp)

theorem matchBarkPhoto_label_reduction_witness :
    ((bestBySpecies sampleSqrt featZero sampleIndex.entries).map Prod.fst).Nodup :=
  (matchBarkPhoto_label_reduction sampleSqrt featZero sampleIndex).1.1

theorem matchBarkPhoto_distance_metric_witness :
    (entryDist sampleSqrt featZero entryZero
        = euclidean sampleSqrt featZero.hist featZero.hist
          + 0.25 * |featZero.edge - featZero.edge|) ∧
    entryDist sampleSqrt featZero entryZero = 0 ∧
    entryDist sampleSqrt featZero entryZero = entryDist sampleSqrt featZero entryZero :=
  matchBarkPhoto_distance_metric sampleSqrt (by simp [sampleSqrt]) featZero featZero
    entryZero entryZero rfl rfl (by simp [featZero]) (by simp [featZero])

theorem matchBarkPhoto_result_invariants_witness :
    (matchBarkPhoto sampleSqrt blankImage sampleIndex 3).Pairwise
      (fun a b => b.confidence ≤ a.confidence) ∧
    ((matchBarkPhoto sampleSqrt blankImage sampleIndex 3).map MatchResult.speciesKey).Nodup :=
  ⟨(matchBarkPhoto_result_invariants sampleSqrt blankImage sampleIndex 3).2.1,
   (matchBarkPhoto_result_invariants sampleSqrt blankImage sampleIndex 3).2.2.2⟩

theorem matchBarkPhoto_confidence_normalisation_witness :
    sampleResult.confidence = clampQ (lerp 0.95 0.55 (clampQ
        ((sampleResult.distance - sampleResult.distance)
          / max 1e-9 ((([] : List MatchResult).getLastD sampleResult).distance
              - sampleResult.distance)) 0 1)) 0.05 0.99 :=
  matchBarkPhoto_confidence_normalisation sampleSqrt sampleImage sampleIndex 1
    sampleResult [] sampleRun sampleResult (by simp)

theorem matchBarkPhoto_blank_gate_witness :
    matchBarkPhoto sampleSqrt blankImage sampleIndex 3 = [] :=
  (matchBarkPhoto_blank_gate sampleSqrt blankImage sampleIndex 3).2
    (by rw [blankImage_metrics.1]; norm_num)
    (by rw [blankImage_metrics.2.1]; norm_num)

theorem extractFeatures_histogram_witness :
    |(extractFeaturesFromRGBA sampleSqrt blankImage).hist.sum - 1| ≤ 1e-6 ∧
    (0 ≤ (extractFeaturesFromRGBA sampleSqrt blankImage).edge ∧
      (extractFeaturesFromRGBA sampleSqrt blankImage).edge ≤ 1) :=
  ⟨(extractFeatures_histogram sampleSqrt blankImage (by decide)).2.2.1,
   (extractFeatures_histogram sampleSqrt blankImage (by decide)).2.2.2⟩

theorem matchBarkPhoto_topK_bound_witness :
    ((matchBarkPhoto sampleSqrt blankImage sampleIndex 2).length : ℤ)
      ≤ min 2 ((sampleIndex.entries.map BarkIndexEntry.speciesKey).toFinset.card : ℤ) :=
  matchBarkPhoto_topK_bound sampleSqrt blankImage sampleIndex 2 (by norm_num)

theorem edgeNorm_refines_edge_witness :
    (analyzeImageQuality sampleSqrt blankImage).edgeNorm
      = (extractFeaturesFromRGBA sampleSqrt blankImage).edge :=
  edgeNorm_refines_edge sampleSqrt blankImage

theorem matchBarkPhoto_topK_one_witness :
    ∃ r : MatchResult, matchBarkPhoto sampleSqrt sampleImage sampleIndex 1 = [r]
        ∧ r.confidence = 0.95 ∧ r.rank = 1 :=
  matchBarkPhoto_topK_one sampleSqrt sampleImage sampleIndex
    (by simp [sampleIndex]) sampleImage_not_blank

theorem matchBarkPhoto_thin_image_witness :
    (analyzeImageQuality sampleSqrt blankImage).edgeNorm = 0 ∧
    (analyzeImageQuality sampleSqrt blankImage).isTooBlank = true ∧
    matchBarkPhoto sampleSqrt blankImage sampleIndex 3 = [] :=
  matchBarkPhoto_thin_image sampleSqrt blankImage sampleIndex 3 (by decide)
    (Or.inl (by decide))
